import Mathlib

/-!
Shallow embedding of the Nim game engine from `src/game/nim/nim_game.rs` and
of the AI-gating fragment of the control loop from `src/game/system.rs`.
Machine integers (`u32`, `usize`, `i32`) are modelled as `Nat`/`Int`;
all subtractions in the source are guarded, so `Nat` truncated subtraction
coincides with the Rust semantics, and the single `as i32` cast of a `u32`
value is modelled explicitly by `u32AsI32`.
-/

namespace NimSpec

/-- Model of `sdl2::rect::Point` (a pair of `i32` coordinates). -/
structure Point where
  x : Int
  y : Int
deriving DecidableEq

/-- Model of `sdl2::rect::Rect`: corner coordinates (`i32`) and extents (`u32`). -/
structure Rect where
  x : Int
  y : Int
  w : Nat
  h : Nat
deriving DecidableEq

/-- Model of `sdl2::rect::Rect::contains_point`: left/top inclusive,
right/bottom exclusive. -/
def Rect.containsPoint (r : Rect) (p : Point) : Bool :=
  decide (r.x ≤ p.x) && decide (p.x < r.x + (r.w : Int)) &&
    decide (r.y ≤ p.y) && decide (p.y < r.y + (r.h : Int))

/-- Reduction modulo `2^32`, the value set of Rust's `u32`. -/
def wrap32 (n : Nat) : Nat := n % 2 ^ 32

/-- The Rust cast `as i32` applied to a `u32` value (two's complement
reinterpretation). -/
def u32AsI32 (n : Nat) : Int :=
  if wrap32 n < 2 ^ 31 then (wrap32 n : Int) else (wrap32 n : Int) - 2 ^ 32

/-- Model of `Player` from `src/game/system.rs`. -/
inductive Player where
  | one
  | two
deriving DecidableEq

/-- Model of `Player::next`. -/
def Player.next : Player → Player
  | .one => .two
  | .two => .one

/-- Model of `PlayerType` from `src/game/system.rs`. -/
inductive PlayerType where
  | Human
  | Computer
deriving DecidableEq

/-- Model of `NimHeap`: `size`/`count` are `u32`; the remaining fields are the
screen-layout data used by hit-testing. -/
structure NimHeap where
  size : Nat
  count : Nat
  corner_x : Int
  corner_y : Int
  stone_width : Nat
  stone_height : Nat
  area_rectangle : Rect
deriving DecidableEq

/-- Model of `NimHeap::new(size, count)`: the initial count is clamped to
`min(size, count)`; layout fields get the same defaults as in the source. -/
def NimHeap.new (size count : Nat) : NimHeap :=
  { size := size
    count := min size count
    corner_x := 0
    corner_y := 0
    stone_width := 1
    stone_height := 1
    area_rectangle := ⟨0, 0, 1, 1⟩ }

/-- Model of `NimHeap::get_nth_stone_rect`: the `n`-th stone (0 = topmost displayed
stone, i.e. the exposed end of the pile) occupies a rectangle below the
`size - count` empty slots.  The `u32` product cast `as i32` is modelled by
`u32AsI32`; the `i32` additions of on-screen coordinates are exact here (an
`i32` overflow would be a panic in a debug build and is not modelled). -/
def NimHeap.get_nth_stone_rect (heap : NimHeap) (n : Nat) : Rect :=
  let empty_slots_count := heap.size - heap.count
  let x := heap.corner_x
  let y := heap.corner_y + u32AsI32 ((empty_slots_count + n) * heap.stone_height)
  ⟨x, y, heap.stone_width, heap.stone_height⟩

/-- Model of `NimMove`. -/
structure NimMove where
  heap_index : Nat
  count_to_remove : Nat
deriving DecidableEq

/-- Model of `NimHeap::prepare_move`: scan the stones in order `0, 1, …, count - 1`
(top of the pile first) and take the first one whose rectangle contains the
pointer; the `for`-loop with `break` is the first satisfying index of
`List.range`.  If no stone is hit, `new_count` keeps its initial value
`count` and the function returns nothing. -/
def NimHeap.prepare_move (heap : NimHeap) (heap_index : Nat) (point : Point) :
    Option NimMove :=
  let new_count :=
    match (List.range heap.count).find?
        (fun i => (heap.get_nth_stone_rect i).containsPoint point) with
    | some i => heap.count - i - 1
    | none => heap.count
  if new_count = heap.count then
    none
  else
    some { heap_index := heap_index, count_to_remove := heap.count - new_count }

/-- Model of `NimGame`: the ordered heap list, the player to move, and the
template heap used by `add_default_heap`. -/
structure NimGame where
  heaps : List NimHeap
  player : Player
  default_heap : NimHeap
deriving DecidableEq

/-- The count of the heap at index `i` (the source only reads this at indices
that are in range, where the `getD` default is never used). -/
def countAt (heaps : List NimHeap) (i : Nat) : Nat :=
  (heaps.map NimHeap.count).getD i 0

/-- Model of `NimGame::make_move`: reject when the heap index is out of range, the
removal count is zero, or it exceeds the referenced heap's count; otherwise
decrease that heap and switch the player.  The Rust method mutates `self` and
returns `bool`; here it returns the flag together with the new state.  The
`none` arm of the lookup is unreachable: the bounds check has already
passed when `self.heaps[nim_move.heap_index]` is read. -/
def NimGame.make_move (g : NimGame) (m : NimMove) : Bool × NimGame :=
  if g.heaps.length ≤ m.heap_index ∨ m.count_to_remove < 1 then
    (false, g)
  else
    match g.heaps.get? m.heap_index with
    | none => (false, g)
    | some heap =>
      if heap.count < m.count_to_remove then
        (false, g)
      else
        (true,
          { g with
            heaps := g.heaps.set m.heap_index
              { heap with count := heap.count - m.count_to_remove }
            player := g.player.next })

/-- Model of `NimGame::is_game_over`: every heap is empty. -/
def NimGame.is_game_over (g : NimGame) : Bool :=
  g.heaps.all (fun heap => heap.count == 0)

/-- The index-tracking loop of `NimGame::prepare_player_move`: try each heap
in order, return the first prepared move. -/
def preparePlayerMoveAux (point : Point) : Nat → List NimHeap → Option NimMove
  | _, [] => none
  | i, heap :: rest =>
    match heap.prepare_move i point with
    | some m => some m
    | none => preparePlayerMoveAux point (i + 1) rest

/-- Model of `NimGame::prepare_player_move`. -/
def NimGame.prepare_player_move (g : NimGame) (point : Point) : Option NimMove :=
  preparePlayerMoveAux point 0 g.heaps

/-- The fold `self.heaps.iter().fold(0, |acc, heap| acc ^ heap.get_count())`. -/
def xorCounts (heaps : List NimHeap) : Nat :=
  heaps.foldl (fun acc heap => acc ^^^ heap.count) 0

/-- The `enumerate().filter_map(...)` pipeline of `prepare_ai_move`: the
indices of the heaps whose count strictly exceeds its XOR with the Nim-sum. -/
def suitableIndices (heaps : List NimHeap) : List Nat :=
  let all_counts_xor := xorCounts heaps
  heaps.enum.filterMap (fun iw =>
    let count := iw.2.count
    if count > (count ^^^ all_counts_xor) then some iw.1 else none)

/-- Model of `NimGame::prepare_ai_move`.  The call `rand::random::<usize>()` is
modelled by the explicit parameter `r`; the source reduces it modulo the
length of the suitable-index list.  The Rust indexing
`self.heaps[heap_index]` is in range whenever it is reached, so `countAt`'s
default is never used. -/
def NimGame.prepare_ai_move (g : NimGame) (r : Nat) : Option NimMove :=
  let all_counts_xor := xorCounts g.heaps
  match suitableIndices g.heaps with
  | [] => none
  | idx0 :: rest =>
    let indices := idx0 :: rest
    let heap_index := indices.get ⟨r % indices.length, Nat.mod_lt _ (Nat.succ_pos _)⟩
    let heap_count := countAt g.heaps heap_index
    let count_to_remove := heap_count - (heap_count ^^^ all_counts_xor)
    some { heap_index := heap_index, count_to_remove := count_to_remove }

/-- The player-role map built in `Game::new`: `Player::One` is `Human`,
`Player::Two` is `Computer`, fixed for the whole run. -/
def playersMap : Player → PlayerType
  | .one => .Human
  | .two => .Computer

/-- The fragment of `Game` state that the move-handling paths read and
write: the engine state and `last_human_move_time` (an `Instant`, modelled
as a `Nat` timestamp in microseconds). -/
structure SysState where
  nim : NimGame
  last_human_move_time : Option Nat
deriving DecidableEq

/-- Model of `Game::handle_player_move` (reached from a left-button-up event): when
the player to move is `Human` and hit-testing yields a move, apply it and
record the current time as the last human move time. -/
def handle_player_move (s : SysState) (point : Point) (now : Nat) : SysState :=
  match playersMap s.nim.player with
  | .Human =>
    match s.nim.prepare_player_move point with
    | some m =>
      { nim := (s.nim.make_move m).2, last_human_move_time := some now }
    | none => s
  | .Computer => s

/-- Model of `Game::handle_ai_move`: when the player to move is `Computer` and the
Nim-sum strategy yields a move, apply it and clear `last_human_move_time`. -/
def handle_ai_move (s : SysState) (r : Nat) : SysState :=
  match playersMap s.nim.player with
  | .Computer =>
    match s.nim.prepare_ai_move r with
    | some m =>
      { nim := (s.nim.make_move m).2, last_human_move_time := none }
    | none => s
  | .Human => s

/-- Model of `Game::handle_ai_players`, called once per tick: only when a last human
move time `t` is recorded and at least `delay` microseconds
(`microseconds_per_ai_move`) have elapsed since it does the AI path run. -/
def handle_ai_players (delay : Nat) (s : SysState) (now r : Nat) : SysState :=
  match s.last_human_move_time with
  | some t => if delay ≤ now - t then handle_ai_move s r else s
  | none => s

/-- The states the control loop can reach: `Game::new` starts with
`player = One` (the heaps themselves come from `add_random_heap` and are
arbitrary) and `last_human_move_time = None`; every later tick only changes
this fragment through `handle_player_move` (left-button-up events) and
`handle_ai_players`. -/
inductive Reachable (delay : Nat) : SysState → Prop where
  | init (g : NimGame) (hp : g.player = .one) : Reachable delay ⟨g, none⟩
  | human (s : SysState) (point : Point) (now : Nat) :
      Reachable delay s → Reachable delay (handle_player_move s point now)
  | ai (s : SysState) (now r : Nat) :
      Reachable delay s → Reachable delay (handle_ai_players delay s now r)

/-- Concrete game with heap counts `{1, 2, 3}` (Nim-sum `0`). -/
def game123 : NimGame :=
  NimGame.mk [NimHeap.new 3 1, NimHeap.new 3 2, NimHeap.new 3 3]
    .one (NimHeap.new 3 3)

/-- Concrete game with heap counts `{3, 5, 7}` (Nim-sum `1`). -/
def game357 : NimGame :=
  NimGame.mk [NimHeap.new 7 3, NimHeap.new 7 5, NimHeap.new 7 7]
    .one (NimHeap.new 7 7)

/-- Concrete game with a single heap of `5` counters. -/
def game5 : NimGame :=
  NimGame.mk [NimHeap.new 5 5] .one (NimHeap.new 5 5)

/-- Concrete game with a single heap of `2` counters (capacity `3`), used to
exercise the pointer path: its stones occupy the unit rectangles at
`(0, 1)` and `(0, 2)`. -/
def gameClick : NimGame :=
  NimGame.mk [NimHeap.new 3 2] .one (NimHeap.new 3 2)

/-- A pointer position over the topmost stone of `gameClick`'s heap. -/
def pointTop : Point := ⟨0, 1⟩

/-- The heap invariant of the spec: every heap's count is at most its
capacity (the lower bound `0 ≤ count` is the type of `count`). -/
def heapsWellFormed (g : NimGame) : Prop :=
  ∀ heap ∈ g.heaps, heap.count ≤ heap.size

/-- The control-loop state at game start with the `gameClick` heaps. -/
def sysInit : SysState := ⟨gameClick, none⟩

/-- The control-loop state after the human clicks `pointTop` at time `5`. -/
def sysAfterHuman : SysState := handle_player_move sysInit pointTop 5

example : (NimHeap.new 3 2).count = 2 := by decide

example :
    (NimGame.mk [NimHeap.new 3 1, NimHeap.new 3 2, NimHeap.new 3 3]
        .one (NimHeap.new 3 3)).prepare_ai_move 0 = none := by decide

example :
    (NimGame.mk [NimHeap.new 7 3, NimHeap.new 7 5, NimHeap.new 7 7]
        .one (NimHeap.new 7 7)).prepare_ai_move 0 =
      some ⟨0, 1⟩ := by decide

example :
    (NimGame.mk [NimHeap.new 3 2] .one (NimHeap.new 3 2)).prepare_player_move
      ⟨0, 1⟩ = some ⟨0, 1⟩ := by decide

lemma xor_left_comm (a b c : Nat) : a ^^^ (b ^^^ c) = b ^^^ (a ^^^ c) := by
  rw [← Nat.xor_assoc, Nat.xor_comm a b, Nat.xor_assoc]

lemma foldl_xor_eq (l : List NimHeap) (acc : Nat) :
    l.foldl (fun a heap => a ^^^ heap.count) acc =
      acc ^^^ l.foldl (fun a heap => a ^^^ heap.count) 0 := by
  induction l generalizing acc with
  | nil => simp
  | cons a t ih =>
    simp only [List.foldl_cons]
    rw [ih (acc ^^^ a.count), ih (0 ^^^ a.count), Nat.zero_xor, Nat.xor_assoc]

lemma xorCounts_cons (heap : NimHeap) (t : List NimHeap) :
    xorCounts (heap :: t) = heap.count ^^^ xorCounts t := by
  simp only [xorCounts, List.foldl_cons, Nat.zero_xor]
  exact foldl_xor_eq t heap.count

lemma testBit_xorCounts_false (k : Nat) (l : List NimHeap)
    (h : ∀ heap ∈ l, heap.count.testBit k = false) :
    (xorCounts l).testBit k = false := by
  induction l with
  | nil => simp [xorCounts]
  | cons a t ih =>
    rw [xorCounts_cons, Nat.testBit_xor, h a (List.mem_cons_self a t),
      ih (fun heap hm => h heap (List.mem_cons_of_mem a hm))]
    rfl

lemma exists_suitable_heap (l : List NimHeap) (hX : xorCounts l ≠ 0) :
    ∃ i heap, l.get? i = some heap ∧
      heap.count ^^^ xorCounts l < heap.count := by
  obtain ⟨k, hk, hk'⟩ := Nat.exists_most_significant_bit hX
  have hbit : ∃ heap ∈ l, heap.count.testBit k = true := by
    by_contra hcon
    push_neg at hcon
    have hall : ∀ heap ∈ l, heap.count.testBit k = false := by
      intro heap hm
      exact Bool.not_eq_true _ ▸ hcon heap hm
    rw [testBit_xorCounts_false k l hall] at hk
    exact Bool.false_ne_true hk
  obtain ⟨heap, hmem, hb⟩ := hbit
  obtain ⟨i, hi⟩ := List.mem_iff_get?.1 hmem
  refine ⟨i, heap, hi, ?_⟩
  refine Nat.lt_of_testBit k ?_ hb ?_
  · rw [Nat.testBit_xor, hb, hk]
    rfl
  · intro j hj
    rw [Nat.testBit_xor, hk' j hj]
    simp

lemma mem_suitableIndices {l : List NimHeap} {i : Nat} :
    i ∈ suitableIndices l ↔
      ∃ heap, l.get? i = some heap ∧
        heap.count ^^^ xorCounts l < heap.count := by
  constructor
  · intro h
    obtain ⟨⟨j, heap⟩, hmem, hf⟩ := List.mem_filterMap.1 h
    dsimp only at hf
    split at hf
    · cases hf
      exact ⟨heap, List.mem_enum_iff_get?.1 hmem, by assumption⟩
    · cases hf
  · rintro ⟨heap, hget, hlt⟩
    exact List.mem_filterMap.2
      ⟨(i, heap), List.mem_enum_iff_get?.2 hget, by dsimp only; rw [if_pos hlt]⟩

lemma suitableIndices_ne_nil {l : List NimHeap} (hX : xorCounts l ≠ 0) :
    suitableIndices l ≠ [] := by
  obtain ⟨i, heap, hget, hlt⟩ := exists_suitable_heap l hX
  exact List.ne_nil_of_mem (mem_suitableIndices.2 ⟨heap, hget, hlt⟩)

lemma suitableIndices_eq_nil_of_xor_eq_zero {l : List NimHeap}
    (hX : xorCounts l = 0) : suitableIndices l = [] := by
  rw [List.eq_nil_iff_forall_not_mem]
  intro i hi
  obtain ⟨heap, _, hlt⟩ := mem_suitableIndices.1 hi
  rw [hX, Nat.xor_zero] at hlt
  exact Nat.lt_irrefl _ hlt

lemma countAt_eq {l : List NimHeap} {i : Nat} {heap : NimHeap}
    (hget : l.get? i = some heap) : countAt l i = heap.count := by
  have h' : l[i]? = some heap := by
    rw [← List.get?_eq_getElem?]
    exact hget
  simp [countAt, List.getD_eq_get?, List.get?_map, h']

lemma prepare_ai_move_none_iff_nil (g : NimGame) (r : Nat) :
    g.prepare_ai_move r = none ↔ suitableIndices g.heaps = [] := by
  cases hs : suitableIndices g.heaps <;>
    simp [NimGame.prepare_ai_move, hs]

lemma prepare_ai_move_spec (g : NimGame) (r : Nat)
    (hX : xorCounts g.heaps ≠ 0) :
    ∃ m heap, g.prepare_ai_move r = some m ∧
      g.heaps.get? m.heap_index = some heap ∧
      heap.count ^^^ xorCounts g.heaps < heap.count ∧
      m.count_to_remove = heap.count - (heap.count ^^^ xorCounts g.heaps) := by
  cases hs : suitableIndices g.heaps with
  | nil => exact absurd hs (suitableIndices_ne_nil hX)
  | cons idx0 rest =>
    have hlen : r % (idx0 :: rest).length < (idx0 :: rest).length :=
      Nat.mod_lt _ (Nat.succ_pos _)
    have hmem : (idx0 :: rest).get ⟨r % (idx0 :: rest).length, hlen⟩ ∈
        suitableIndices g.heaps := by
      rw [hs]
      exact List.get_mem _ _ _
    obtain ⟨heap, hget, hlt⟩ := mem_suitableIndices.1 hmem
    have hca :
        countAt g.heaps ((idx0 :: rest).get ⟨r % (idx0 :: rest).length, hlen⟩) =
          heap.count := countAt_eq hget
    refine ⟨⟨(idx0 :: rest).get ⟨r % (idx0 :: rest).length, hlen⟩,
      countAt g.heaps ((idx0 :: rest).get ⟨r % (idx0 :: rest).length, hlen⟩) -
        (countAt g.heaps ((idx0 :: rest).get ⟨r % (idx0 :: rest).length, hlen⟩) ^^^
          xorCounts g.heaps)⟩, heap, ?_, hget, hlt, by rw [hca]⟩
    simp [NimGame.prepare_ai_move, hs]

lemma make_move_of_legal (g : NimGame) (m : NimMove) (heap : NimHeap)
    (hget : g.heaps.get? m.heap_index = some heap)
    (h1 : 1 ≤ m.count_to_remove) (h2 : m.count_to_remove ≤ heap.count) :
    g.make_move m =
      (true,
        { g with
          heaps := g.heaps.set m.heap_index
            { heap with count := heap.count - m.count_to_remove }
          player := g.player.next }) := by
  have hlt : m.heap_index < g.heaps.length := (List.get?_eq_some.1 hget).1
  have hcond : ¬(g.heaps.length ≤ m.heap_index ∨ m.count_to_remove < 1) := by
    push_neg
    exact ⟨hlt, h1⟩
  unfold NimGame.make_move
  rw [if_neg hcond, hget]
  dsimp only
  rw [if_neg (Nat.not_lt.2 h2)]

lemma xorCounts_set (l : List NimHeap) :
    ∀ (i : Nat) (heap heap' : NimHeap), l.get? i = some heap →
      xorCounts (l.set i heap') = xorCounts l ^^^ heap.count ^^^ heap'.count := by
  induction l with
  | nil => intro i heap heap' h; cases h
  | cons a t ih =>
    intro i heap heap' h
    cases i with
    | zero =>
      obtain rfl : a = heap := by
        simpa using h
      rw [List.set_cons_zero, xorCounts_cons, xorCounts_cons]
      simp [Nat.xor_assoc, Nat.xor_comm, xor_left_comm, Nat.xor_cancel_left,
        Nat.xor_self, Nat.xor_zero, Nat.zero_xor]
    | succ n =>
      have ht : t.get? n = some heap := by
        simpa using h
      rw [List.set_cons_succ, xorCounts_cons, xorCounts_cons, ih n heap heap' ht]
      simp [Nat.xor_assoc]

/-- C1 counterexample: in the position with heap counts `{1, 2, 3}` some
heap is nonempty (the game is not over), yet `prepare_ai_move` returns
nothing — the claimed XOR-zero fallback (remove one counter from some
nonempty heap) does not exist in the code. -/
theorem prepare_ai_move_none_despite_nonempty_heaps :
    (∃ heap ∈ game123.heaps, heap.count ≠ 0) ∧
      game123.prepare_ai_move 0 = none := by
  decide

/-- C1 (amended): `prepare_ai_move` returns nothing exactly when the XOR of
all heap counts is `0` — in particular when all heaps are empty, but also in
any nonempty losing position. -/
theorem prepare_ai_move_eq_none_iff_xor_eq_zero (g : NimGame) (r : Nat) :
    g.prepare_ai_move r = none ↔ xorCounts g.heaps = 0 := by
  rw [prepare_ai_move_none_iff_nil]
  constructor
  · intro h
    by_contra hX
    exact suitableIndices_ne_nil hX h
  · exact suitableIndices_eq_nil_of_xor_eq_zero

/-- C2: whenever the XOR `X` of all heap counts is nonzero,
`prepare_ai_move` returns a move on a heap whose count `c` satisfies
`c > c ^^^ X`, removing `c - (c ^^^ X)` counters; the move is accepted by
`make_move` and the resulting position has XOR exactly `0`. -/
theorem prepare_ai_move_optimal (g : NimGame) (r : Nat)
    (hX : xorCounts g.heaps ≠ 0) :
    ∃ m heap, g.prepare_ai_move r = some m ∧
      g.heaps.get? m.heap_index = some heap ∧
      heap.count ^^^ xorCounts g.heaps < heap.count ∧
      m.count_to_remove = heap.count - (heap.count ^^^ xorCounts g.heaps) ∧
      (g.make_move m).1 = true ∧
      xorCounts ((g.make_move m).2).heaps = 0 := by
  obtain ⟨m, heap, hsome, hget, hlt, hctr⟩ := prepare_ai_move_spec g r hX
  have h1 : 1 ≤ m.count_to_remove := by
    rw [hctr]
    omega
  have h2 : m.count_to_remove ≤ heap.count := by
    rw [hctr]
    omega
  have hmm := make_move_of_legal g m heap hget h1 h2
  refine ⟨m, heap, hsome, hget, hlt, hctr, by rw [hmm], ?_⟩
  rw [hmm]
  dsimp only
  rw [xorCounts_set g.heaps m.heap_index heap _ hget]
  dsimp only
  rw [hctr, Nat.sub_sub_self (Nat.le_of_lt hlt)]
  simp [Nat.xor_assoc, Nat.xor_comm, xor_left_comm, Nat.xor_cancel_left,
    Nat.xor_self, Nat.xor_zero, Nat.zero_xor]

/-- C2 witness: the single-heap position `{5}` has XOR `5 ≠ 0` and the
theorem applies to it. -/
theorem prepare_ai_move_optimal_witness :
    xorCounts game5.heaps ≠ 0 ∧
      (∃ m heap, game5.prepare_ai_move 0 = some m ∧
        game5.heaps.get? m.heap_index = some heap ∧
        heap.count ^^^ xorCounts game5.heaps < heap.count ∧
        m.count_to_remove = heap.count - (heap.count ^^^ xorCounts game5.heaps) ∧
        (game5.make_move m).1 = true ∧
        xorCounts ((game5.make_move m).2).heaps = 0) :=
  ⟨by decide, prepare_ai_move_optimal game5 0 (by decide)⟩

/-- C7: whenever the XOR of all heap counts is nonzero, the list of suitable
heap indices collected by `prepare_ai_move` is non-empty, and the function
returns some move. -/
theorem suitable_nonempty_of_xor_ne_zero (g : NimGame) (r : Nat)
    (hX : xorCounts g.heaps ≠ 0) :
    suitableIndices g.heaps ≠ [] ∧ ∃ m, g.prepare_ai_move r = some m := by
  refine ⟨suitableIndices_ne_nil hX, ?_⟩
  obtain ⟨m, heap, hsome, _⟩ := prepare_ai_move_spec g r hX
  exact ⟨m, hsome⟩

/-- C7 witness: heaps `{3, 5, 7}` have XOR `1 ≠ 0`; the theorem applies, and
indeed all three heaps are suitable. -/
theorem suitable_nonempty_witness :
    xorCounts game357.heaps ≠ 0 ∧
      (suitableIndices game357.heaps ≠ [] ∧
        ∃ m, game357.prepare_ai_move 0 = some m) ∧
      suitableIndices game357.heaps = [0, 1, 2] :=
  ⟨by decide, suitable_nonempty_of_xor_ne_zero game357 0 (by decide), by decide⟩

lemma foldr_max_eq_zero_iff (l : List Nat) :
    l.foldr max 0 = 0 ↔ ∀ x ∈ l, x = 0 := by
  induction l with
  | nil => simp
  | cons a t ih =>
    simp only [List.foldr_cons, List.mem_cons, forall_eq_or_imp, ← ih]
    omega

/-- C5: `is_game_over` is true exactly when every heap's count is `0`,
equivalently exactly when the sum (or the maximum) of the counts is `0`; an
empty heap collection counts as game over. -/
theorem is_game_over_iff (g : NimGame) :
    (g.is_game_over = true ↔ ∀ heap ∈ g.heaps, heap.count = 0) ∧
      (g.is_game_over = true ↔ (g.heaps.map NimHeap.count).sum = 0) ∧
      (g.is_game_over = true ↔ (g.heaps.map NimHeap.count).foldr max 0 = 0) ∧
      (g.heaps = [] → g.is_game_over = true) := by
  have h1 : g.is_game_over = true ↔ ∀ heap ∈ g.heaps, heap.count = 0 := by
    simp [NimGame.is_game_over, List.all_eq_true]
  have h2 : (g.heaps.map NimHeap.count).sum = 0 ↔
      ∀ heap ∈ g.heaps, heap.count = 0 := by
    rw [List.sum_eq_zero_iff]
    simp
  have h3 : (g.heaps.map NimHeap.count).foldr max 0 = 0 ↔
      ∀ heap ∈ g.heaps, heap.count = 0 := by
    rw [foldr_max_eq_zero_iff]
    simp
  refine ⟨h1, h1.trans h2.symm, h1.trans h3.symm, ?_⟩
  intro he
  rw [h1, he]
  simp

lemma make_move_snd (g : NimGame) (m : NimMove) :
    (g.make_move m).2 = g ∨
      ∃ heap, g.heaps.get? m.heap_index = some heap ∧
        m.count_to_remove ≤ heap.count ∧
        (g.make_move m).2 =
          { g with
            heaps := g.heaps.set m.heap_index
              { heap with count := heap.count - m.count_to_remove }
            player := g.player.next } := by
  unfold NimGame.make_move
  split
  · exact Or.inl rfl
  · cases hget : g.heaps.get? m.heap_index with
    | none =>
      exact Or.inl rfl
    | some heap =>
      dsimp only
      split
      · exact Or.inl rfl
      · exact Or.inr ⟨heap, rfl, Nat.not_lt.1 (by assumption), rfl⟩

/-- C3: `make_move` returns failure with the state (heaps and turn
indicator) unchanged exactly when the heap index is out of range, the
removal count is below `1`, or it exceeds the referenced heap's remaining
count. -/
theorem make_move_rejects_iff (g : NimGame) (m : NimMove) :
    ((g.make_move m).1 = false ∧ (g.make_move m).2 = g) ↔
      (g.heaps.length ≤ m.heap_index ∨ m.count_to_remove < 1 ∨
        countAt g.heaps m.heap_index < m.count_to_remove) := by
  unfold NimGame.make_move
  split
  case isTrue h =>
    constructor
    · intro _
      rcases h with h | h
      · exact Or.inl h
      · exact Or.inr (Or.inl h)
    · intro _
      exact ⟨rfl, rfl⟩
  case isFalse h =>
    push_neg at h
    cases hget : g.heaps.get? m.heap_index with
    | none =>
      exact absurd (List.get?_eq_none.1 hget) (Nat.not_le.2 h.1)
    | some heap =>
      have hca : countAt g.heaps m.heap_index = heap.count := countAt_eq hget
      dsimp only
      split
      case isTrue h2 =>
        constructor
        · intro _
          exact Or.inr (Or.inr (by rw [hca]; exact h2))
        · intro _
          exact ⟨rfl, rfl⟩
      case isFalse h2 =>
        push_neg at h2
        constructor
        · rintro ⟨hfalse, -⟩
          exact absurd hfalse (by simp)
        · rintro (hbad | hbad | hbad)
          · omega
          · omega
          · rw [hca] at hbad
            omega

/-- C4: a legal move is accepted: the referenced heap's count decreases by
exactly `count_to_remove`, every other heap is untouched, every heap keeps
its capacity, the heap list keeps its length, the turn indicator flips, and
the result is success. -/
theorem make_move_success_frame (g : NimGame) (m : NimMove)
    (h1 : m.heap_index < g.heaps.length)
    (h2 : 1 ≤ m.count_to_remove)
    (h3 : m.count_to_remove ≤ countAt g.heaps m.heap_index) :
    (g.make_move m).1 = true ∧
      countAt ((g.make_move m).2).heaps m.heap_index =
        countAt g.heaps m.heap_index - m.count_to_remove ∧
      (∀ j, j ≠ m.heap_index →
        ((g.make_move m).2).heaps.get? j = g.heaps.get? j) ∧
      ((g.make_move m).2).heaps.length = g.heaps.length ∧
      (∀ j heap heap', g.heaps.get? j = some heap →
        ((g.make_move m).2).heaps.get? j = some heap' →
        heap'.size = heap.size) ∧
      ((g.make_move m).2).player = g.player.next ∧
      ((g.make_move m).2).default_heap = g.default_heap := by
  obtain ⟨heap, hget⟩ : ∃ heap, g.heaps.get? m.heap_index = some heap :=
    ⟨_, List.get?_eq_get h1⟩
  have hca : countAt g.heaps m.heap_index = heap.count := countAt_eq hget
  have hmm := make_move_of_legal g m heap hget h2 (by rw [← hca]; exact h3)
  rw [hmm]
  dsimp only
  have hset : (g.heaps.set m.heap_index
      { heap with count := heap.count - m.count_to_remove }).get? m.heap_index =
      some { heap with count := heap.count - m.count_to_remove } := by
    rw [List.get?_set_eq, hget]
    rfl
  refine ⟨rfl, ?_, ?_, List.length_set _ _ _, ?_, rfl, rfl⟩
  · rw [countAt_eq hset, hca]
  · intro j hj
    exact List.get?_set_ne _ _ (fun hh => hj hh.symm)
  · intro j heap1 heap2 hg1 hg2
    by_cases hj : j = m.heap_index
    · subst hj
      rw [hget] at hg1
      cases hg1
      rw [hset] at hg2
      cases hg2
      rfl
    · rw [List.get?_set_ne _ _ (fun hh => hj hh.symm), hg1] at hg2
      cases hg2
      rfl

/-- C4 witness: removing `2` counters from the heap of `5` in `game5` is a
legal move and the theorem applies to it. -/
theorem make_move_success_frame_witness :
    (0 : Nat) < game5.heaps.length ∧
      (game5.make_move ⟨0, 2⟩).1 = true ∧
      countAt ((game5.make_move ⟨0, 2⟩).2).heaps 0 =
        countAt game5.heaps 0 - 2 ∧
      (∀ j, j ≠ 0 →
        ((game5.make_move ⟨0, 2⟩).2).heaps.get? j = game5.heaps.get? j) ∧
      ((game5.make_move ⟨0, 2⟩).2).heaps.length = game5.heaps.length ∧
      (∀ j heap heap', game5.heaps.get? j = some heap →
        ((game5.make_move ⟨0, 2⟩).2).heaps.get? j = some heap' →
        heap'.size = heap.size) ∧
      ((game5.make_move ⟨0, 2⟩).2).player = game5.player.next ∧
      ((game5.make_move ⟨0, 2⟩).2).default_heap = game5.default_heap :=
  ⟨by decide,
    make_move_success_frame game5 ⟨0, 2⟩ (by decide) (by decide) (by decide)⟩

/-- C6: a new heap starts with `count = min(capacity, requested_count)`
(hence `count ≤ capacity`; `0 ≤ count` holds by the type of `count`), and
`make_move` preserves the invariant `count ≤ capacity` for every heap of the
game. -/
theorem heap_new_min_and_invariant_preserved (size count : Nat)
    (g : NimGame) (m : NimMove) (hinv : heapsWellFormed g) :
    (NimHeap.new size count).count = min size count ∧
      (NimHeap.new size count).count ≤ size ∧
      heapsWellFormed (g.make_move m).2 := by
  refine ⟨rfl, Nat.min_le_left _ _, ?_⟩
  rcases make_move_snd g m with hsame | ⟨heap, hget, hle, hnew⟩
  · rw [hsame]
    exact hinv
  · rw [hnew]
    intro heap' hmem
    rcases List.mem_or_eq_of_mem_set hmem with hmem' | rfl
    · exact hinv heap' hmem'
    · have : heap.count ≤ heap.size := hinv heap (List.get?_mem hget)
      dsimp only
      omega

/-- C6 witness: `NimHeap.new 4 9` clamps the count to `4`, and a concrete
move on `game5` preserves the invariant. -/
theorem heap_new_min_witness :
    (NimHeap.new 4 9).count = min 4 9 ∧
      (NimHeap.new 4 9).count ≤ 4 ∧
      heapsWellFormed (game5.make_move ⟨0, 2⟩).2 :=
  heap_new_min_and_invariant_preserved 4 9 game5 ⟨0, 2⟩
    (by unfold heapsWellFormed; decide)

lemma find?_range'_eq_none {pred : Nat → Bool} :
    ∀ (len s : Nat), (List.range' s len).find? pred = none ↔
      ∀ n, s ≤ n → n < s + len → pred n = false := by
  intro len
  induction len with
  | zero =>
    intro s
    simp only [List.range'_zero, List.find?_nil, true_iff]
    intro n h1 h2
    omega
  | succ len ih =>
    intro s
    rw [List.range'_succ]
    by_cases hp : pred s
    · rw [List.find?_cons_of_pos _ hp]
      constructor
      · intro h
        cases h
      · intro h
        rw [h s (Nat.le_refl s) (by omega)] at hp
        cases hp
    · rw [List.find?_cons_of_neg _ (by simp [hp]), ih (s + 1)]
      constructor
      · intro h n h1 h2
        rcases Nat.eq_or_lt_of_le h1 with rfl | h1'
        · exact Bool.eq_false_iff.2 hp
        · exact h n h1' (by omega)
      · intro h n h1 h2
        exact h n (by omega) (by omega)

lemma find?_range'_eq_some {pred : Nat → Bool} :
    ∀ (len s j : Nat), s ≤ j → j < s + len → pred j = true →
      (∀ n, s ≤ n → n < j → pred n = false) →
      (List.range' s len).find? pred = some j := by
  intro len
  induction len with
  | zero =>
    intro s j h1 h2
    omega
  | succ len ih =>
    intro s j h1 h2 hj hmin
    rw [List.range'_succ]
    by_cases hp : pred s
    · have hsj : j = s := by
        by_contra hne
        have hs : s < j := by omega
        rw [hmin s (Nat.le_refl s) hs] at hp
        cases hp
      rw [hsj, List.find?_cons_of_pos _ hp]
    · have hsj : s < j := by
        rcases Nat.eq_or_lt_of_le h1 with rfl | h1'
        · exact absurd hj hp
        · exact h1'
      rw [List.find?_cons_of_neg _ (by simp [hp])]
      exact ih (s + 1) j (by omega) (by omega) hj
        (fun n hn1 hn2 => hmin n (by omega) hn2)

lemma prepare_move_eq_none_iff (heap : NimHeap) (idx : Nat) (p : Point) :
    heap.prepare_move idx p = none ↔
      ∀ n < heap.count, (heap.get_nth_stone_rect n).containsPoint p = false := by
  unfold NimHeap.prepare_move
  cases hf : (List.range heap.count).find?
      (fun i => (heap.get_nth_stone_rect i).containsPoint p) with
  | none =>
    rw [if_pos rfl]
    constructor
    · intro _ n hn
      exact Bool.eq_false_iff.2 (List.find?_eq_none.1 hf n (List.mem_range.2 hn))
    · intro _
      rfl
  | some i =>
    have hi : i < heap.count := List.mem_range.1 (List.mem_of_find?_eq_some hf)
    have hpred := List.find?_some hf
    dsimp only
    have hcond : ¬(heap.count - i - 1 = heap.count) := by omega
    rw [if_neg hcond]
    constructor
    · intro h
      cases h
    · intro hall
      rw [hall i hi] at hpred
      cases hpred

lemma prepare_move_first_hit (heap : NimHeap) (idx : Nat) (p : Point) (j : Nat)
    (hj : j < heap.count)
    (hhit : (heap.get_nth_stone_rect j).containsPoint p = true)
    (hmin : ∀ n < j, (heap.get_nth_stone_rect n).containsPoint p = false) :
    heap.prepare_move idx p = some ⟨idx, j + 1⟩ := by
  have hf : (List.range heap.count).find?
      (fun i => (heap.get_nth_stone_rect i).containsPoint p) = some j := by
    rw [List.range_eq_range']
    exact find?_range'_eq_some heap.count 0 j (Nat.zero_le j) (by omega) hhit
      (fun n _ hn => hmin n hn)
  unfold NimHeap.prepare_move
  rw [hf]
  dsimp only
  have hcond : ¬(heap.count - j - 1 = heap.count) := by omega
  rw [if_neg hcond]
  have hctr : heap.count - (heap.count - j - 1) = j + 1 := by omega
  rw [hctr]

lemma preparePlayerMoveAux_eq_none_iff (p : Point) :
    ∀ (heaps : List NimHeap) (i : Nat),
      preparePlayerMoveAux p i heaps = none ↔
        ∀ heap ∈ heaps, ∀ n < heap.count,
          (heap.get_nth_stone_rect n).containsPoint p = false := by
  intro heaps
  induction heaps with
  | nil =>
    intro i
    simp [preparePlayerMoveAux]
  | cons a t ih =>
    intro i
    simp only [preparePlayerMoveAux]
    cases hpm : a.prepare_move i p with
    | some m =>
      constructor
      · intro h
        cases h
      · intro hall
        have hnone : a.prepare_move i p = none :=
          (prepare_move_eq_none_iff a i p).2
            (fun n hn => hall a (List.mem_cons_self a t) n hn)
        rw [hpm] at hnone
        cases hnone
    | none =>
      rw [ih (i + 1)]
      constructor
      · intro h heap hm
        rcases List.mem_cons.1 hm with rfl | hm'
        · exact fun n hn => (prepare_move_eq_none_iff heap i p).1 hpm n hn
        · exact h heap hm'
      · intro h heap hm
        exact h heap (List.mem_cons_of_mem a hm)

lemma preparePlayerMoveAux_first (p : Point) :
    ∀ (heaps : List NimHeap) (i0 k : Nat) (heap : NimHeap) (m : NimMove),
      heaps.get? k = some heap →
      (∀ k' heap', k' < k → heaps.get? k' = some heap' →
        ∀ n < heap'.count,
          (heap'.get_nth_stone_rect n).containsPoint p = false) →
      heap.prepare_move (i0 + k) p = some m →
      preparePlayerMoveAux p i0 heaps = some m := by
  intro heaps
  induction heaps with
  | nil =>
    intro i0 k heap m hg
    cases hg
  | cons a t ih =>
    intro i0 k heap m hg hfirst hpm
    simp only [preparePlayerMoveAux]
    cases k with
    | zero =>
      obtain rfl : a = heap := by simpa using hg
      rw [Nat.add_zero] at hpm
      rw [hpm]
    | succ k =>
      have hnone : a.prepare_move i0 p = none := by
        rw [prepare_move_eq_none_iff]
        exact hfirst 0 a (Nat.succ_pos k) rfl
      rw [hnone]
      have hg' : t.get? k = some heap := by simpa using hg
      have hpm' : heap.prepare_move (i0 + 1 + k) p = some m := by
        rw [show i0 + 1 + k = i0 + (k + 1) by omega]
        exact hpm
      exact ih (i0 + 1) k heap m hg'
        (fun k' heap' hk hg'' =>
          hfirst (k' + 1) heap' (Nat.succ_lt_succ hk) (by simpa using hg''))
        hpm'

lemma preparePlayerMoveAux_some (p : Point) :
    ∀ (heaps : List NimHeap) (i0 : Nat) (m : NimMove),
      preparePlayerMoveAux p i0 heaps = some m →
      ∃ k heap, heaps.get? k = some heap ∧
        heap.prepare_move (i0 + k) p = some m := by
  intro heaps
  induction heaps with
  | nil =>
    intro i0 m h
    cases h
  | cons a t ih =>
    intro i0 m h
    simp only [preparePlayerMoveAux] at h
    cases hpm : a.prepare_move i0 p with
    | some m' =>
      rw [hpm] at h
      cases h
      exact ⟨0, a, rfl, by rw [Nat.add_zero]; exact hpm⟩
    | none =>
      rw [hpm] at h
      obtain ⟨k, heap, hg, hpm'⟩ := ih (i0 + 1) m h
      refine ⟨k + 1, heap, by simpa using hg, ?_⟩
      rw [show i0 + (k + 1) = i0 + 1 + k by omega]
      exact hpm'

lemma prepare_move_some_spec (heap : NimHeap) (idx : Nat) (p : Point)
    (m : NimMove) (h : heap.prepare_move idx p = some m) :
    m.heap_index = idx ∧ 1 ≤ m.count_to_remove ∧
      m.count_to_remove ≤ heap.count := by
  unfold NimHeap.prepare_move at h
  cases hf : (List.range heap.count).find?
      (fun i => (heap.get_nth_stone_rect i).containsPoint p) with
  | none =>
    rw [hf] at h
    rw [if_pos rfl] at h
    cases h
  | some i =>
    have hi : i < heap.count := List.mem_range.1 (List.mem_of_find?_eq_some hf)
    rw [hf] at h
    dsimp only at h
    have hcond : ¬(heap.count - i - 1 = heap.count) := by omega
    rw [if_neg hcond] at h
    cases h
    refine ⟨rfl, ?_, ?_⟩
    · show 1 ≤ heap.count - (heap.count - i - 1)
      omega
    · show heap.count - (heap.count - i - 1) ≤ heap.count
      omega

/-- C8: `prepare_player_move` returns nothing exactly when the pointer is
over no stone of any heap; and when it scans heaps in index order, the first
heap with a hit wins: if heap `i` is the first heap with any hit and the
topmost hit stone in it has 0-based offset `j` from the exposed (top) end,
the returned move removes `j + 1` counters from heap `i`. -/
theorem prepare_player_move_first_hit_spec (g : NimGame) (p : Point) :
    (g.prepare_player_move p = none ↔
      ∀ heap ∈ g.heaps, ∀ n < heap.count,
        (heap.get_nth_stone_rect n).containsPoint p = false) ∧
      (∀ i heap j, g.heaps.get? i = some heap →
        (∀ i' heap', i' < i → g.heaps.get? i' = some heap' →
          ∀ n < heap'.count,
            (heap'.get_nth_stone_rect n).containsPoint p = false) →
        j < heap.count →
        (heap.get_nth_stone_rect j).containsPoint p = true →
        (∀ n < j, (heap.get_nth_stone_rect n).containsPoint p = false) →
        g.prepare_player_move p = some ⟨i, j + 1⟩) := by
  constructor
  · exact preparePlayerMoveAux_eq_none_iff p g.heaps 0
  · intro i heap j hget hfirst hj hhit hmin
    refine preparePlayerMoveAux_first p g.heaps 0 i heap ⟨i, j + 1⟩ hget hfirst ?_
    rw [Nat.zero_add]
    exact prepare_move_first_hit heap i p j hj hhit hmin

/-- C8 witness: in `gameClick` the pointer `pointTop` hits the topmost stone
(offset `0`) of heap `0`, and the prepared move removes `0 + 1 = 1`
counter from heap `0`. -/
theorem prepare_player_move_first_hit_witness :
    gameClick.heaps.get? 0 = some (NimHeap.new 3 2) ∧
      ((NimHeap.new 3 2).get_nth_stone_rect 0).containsPoint pointTop = true ∧
      gameClick.prepare_player_move pointTop = some ⟨0, 0 + 1⟩ :=
  ⟨by decide, by decide,
    (prepare_player_move_first_hit_spec gameClick pointTop).2 0 (NimHeap.new 3 2) 0
      (by decide)
      (fun i' heap' hlt _ => absurd hlt (Nat.not_lt_zero i'))
      (by decide) (by decide)
      (fun n hn => absurd hn (Nat.not_lt_zero n))⟩

/-- C10: every move produced by `prepare_player_move` is legal for the
current position — its heap index is in range and its removal count is
between `1` and the referenced heap's count — so `make_move` accepts it. -/
theorem prepare_player_move_legal (g : NimGame) (p : Point) (m : NimMove)
    (h : g.prepare_player_move p = some m) :
    m.heap_index < g.heaps.length ∧ 1 ≤ m.count_to_remove ∧
      m.count_to_remove ≤ countAt g.heaps m.heap_index ∧
      (g.make_move m).1 = true := by
  obtain ⟨k, heap, hg, hpm⟩ := preparePlayerMoveAux_some p g.heaps 0 m h
  rw [Nat.zero_add] at hpm
  obtain ⟨hidx, h1, h2⟩ := prepare_move_some_spec heap k p m hpm
  rw [← hidx] at hg
  have hlen : m.heap_index < g.heaps.length := (List.get?_eq_some.1 hg).1
  have hca : countAt g.heaps m.heap_index = heap.count := countAt_eq hg
  have hmm := make_move_of_legal g m heap hg h1 h2
  refine ⟨hlen, h1, ?_, by rw [hmm]⟩
  rw [hca]
  exact h2

/-- C10 witness: the concrete prepared move of `gameClick` at `pointTop` is
legal and accepted. -/
theorem prepare_player_move_legal_witness :
    gameClick.prepare_player_move pointTop = some ⟨0, 1⟩ ∧
      ((⟨0, 1⟩ : NimMove).heap_index < gameClick.heaps.length ∧
        1 ≤ (⟨0, 1⟩ : NimMove).count_to_remove ∧
        (⟨0, 1⟩ : NimMove).count_to_remove ≤
          countAt gameClick.heaps (⟨0, 1⟩ : NimMove).heap_index ∧
        (gameClick.make_move ⟨0, 1⟩).1 = true) :=
  ⟨by decide, prepare_player_move_legal gameClick pointTop ⟨0, 1⟩ (by decide)⟩

lemma ai_move_flips (g : NimGame) (r : Nat) (m : NimMove)
    (h : g.prepare_ai_move r = some m) :
    ((g.make_move m).2).player = g.player.next := by
  have hX : xorCounts g.heaps ≠ 0 := by
    intro h0
    rw [(prepare_ai_move_none_iff_nil g r).2
      (suitableIndices_eq_nil_of_xor_eq_zero h0)] at h
    cases h
  obtain ⟨m', heap, hsome, hget, hlt, hctr⟩ := prepare_ai_move_spec g r hX
  rw [h] at hsome
  cases hsome
  have h1 : 1 ≤ m.count_to_remove := by
    rw [hctr]
    omega
  have h2 : m.count_to_remove ≤ heap.count := by
    rw [hctr]
    omega
  rw [make_move_of_legal g m heap hget h1 h2]

lemma reachable_computer_has_time {delay : Nat} {s : SysState}
    (hr : Reachable delay s) :
    playersMap s.nim.player = .Computer →
      ∃ t, s.last_human_move_time = some t := by
  induction hr with
  | init g hp =>
    intro hc
    rw [hp] at hc
    exact absurd hc (by decide)
  | human s point now hr ih =>
    unfold handle_player_move
    cases hh : playersMap s.nim.player with
    | Human =>
      cases hpm : s.nim.prepare_player_move point with
      | some m =>
        intro _
        exact ⟨now, rfl⟩
      | none =>
        exact ih
    | Computer =>
      exact ih
  | ai s now r hr ih =>
    unfold handle_ai_players
    cases hl : s.last_human_move_time with
    | none =>
      exact ih
    | some t =>
      dsimp only
      by_cases hd : delay ≤ now - t
      · rw [if_pos hd]
        unfold handle_ai_move
        cases hh : playersMap s.nim.player with
        | Human =>
          exact ih
        | Computer =>
          cases hpm : s.nim.prepare_ai_move r with
          | none =>
            exact ih
          | some m =>
            intro hc
            dsimp only at hc
            exfalso
            rw [ai_move_flips s.nim r m hpm] at hc
            have hp2 : s.nim.player = .two := by
              cases hq : s.nim.player
              · rw [hq] at hh
                exact absurd hh (by decide)
              · rfl
            rw [hp2] at hc
            exact absurd hc (by decide)
      · rw [if_neg hd]
        exact ih

/-- C9: on every reachable control-loop state in which the player to move is
mapped to the Computer role, a last-human-move timestamp `t` is recorded
(with the fixed One→Human, Two→Computer mapping the Computer is only ever to
move after a human move, so the game-start baseline never arises), the AI
path runs exactly when the configured delay has elapsed since `t`, and as
soon as the AI makes its move the delay timer is reset (cleared). -/
theorem ai_move_gating (delay now r : Nat) (s : SysState)
    (hr : Reachable delay s) (hc : playersMap s.nim.player = .Computer) :
    ∃ t, s.last_human_move_time = some t ∧
      (handle_ai_players delay s now r =
        if delay ≤ now - t then handle_ai_move s r else s) ∧
      ∀ m, s.nim.prepare_ai_move r = some m →
        (handle_ai_move s r).last_human_move_time = none := by
  obtain ⟨t, ht⟩ := reachable_computer_has_time hr hc
  refine ⟨t, ht, ?_, ?_⟩
  · unfold handle_ai_players
    rw [ht]
  · intro m hm
    unfold handle_ai_move
    rw [hc, hm]

/-- C9 witness: after the human move at time `5` in `sysAfterHuman`, the
Computer is to move and the theorem applies with delay `10` at time `20`. -/
theorem ai_move_gating_witness :
    playersMap sysAfterHuman.nim.player = PlayerType.Computer ∧
      ∃ t, sysAfterHuman.last_human_move_time = some t ∧
        (handle_ai_players 10 sysAfterHuman 20 0 =
          if 10 ≤ 20 - t then handle_ai_move sysAfterHuman 0
          else sysAfterHuman) ∧
        ∀ m, sysAfterHuman.nim.prepare_ai_move 0 = some m →
          (handle_ai_move sysAfterHuman 0).last_human_move_time = none :=
  ⟨by decide,
    ai_move_gating 10 20 0 sysAfterHuman
      (Reachable.human sysInit pointTop 5 (Reachable.init gameClick rfl))
      (by decide)⟩

end NimSpec
